import Mathlib

/-!
Verification development for the pulseWM compositor core
(src/main.rs and src/state.rs), as a shallow embedding.

State that the Rust code keeps inside the smithay library objects is made
explicit here: the Space is a list of windows in insertion (z) order, each
toplevel surface's committed-buffer status is an association list, the seat
keyboard focus is an option, and the global SERIAL_COUNTER is a natural
number.  Observable effects (configures sent, forwarded key events, spawns,
render phases, frame callbacks) are returned as event lists.
-/

namespace PulseWM

/-- An observable effect of the compositor core. -/
inductive Ev where
  /-- A configure was sent for the toplevel whose wl_surface id is given
  (state.rs line 88, send_pending_configure). -/
  | configure (wid : Nat)
  /-- A key event was forwarded to the focused client with the given serial,
  modified keysym, press state and focus target. -/
  | forwardKey (serial : Nat) (keysym : Nat) (pressed : Bool) (target : Nat)
  /-- The external program was spawned for the global binding
  (main.rs lines 172-176). -/
  | spawn
  /-- The render target was acquired (main.rs line 182, backend.bind). -/
  | bindTarget
  /-- The mapped windows with the listed surface ids were composed
  (main.rs lines 184-194, render_output over the Space). -/
  | renderComposite (wids : List Nat)
  /-- The composed frame was submitted (main.rs line 196, backend.submit). -/
  | submitFrame
  /-- A frame-presentation callback carrying the elapsed time since server
  start was sent to the window (main.rs lines 198-205, send_frame). -/
  | frameCallback (wid : Nat) (elapsed : Nat)
  /-- Space bookkeeping was refreshed (main.rs line 207, space.refresh). -/
  | refreshSpace
  /-- Client buffers were flushed (main.rs line 209, flush_clients). -/
  | flushClients
deriving Repr, DecidableEq

/-- A window in the Space: its toplevel wl_surface id, the
initial_configure_sent flag kept in the surface's XdgToplevelSurfaceData,
and its position (state.rs lines 138-141 map every new window at (0,0)). -/
structure WindowM where
  surface : Nat
  initial_configure_sent : Bool
  pos : Int × Int
deriving Repr, DecidableEq

/-- The compositor state, the explicit form of struct State (state.rs
lines 37-48) plus the seat keyboard focus and the global SERIAL_COUNTER
from main.rs. -/
structure CState where
  /-- The windows mapped in the Space, in insertion order. -/
  space : List WindowM
  /-- For each wl_surface id, whether a committed (current) buffer is
  attached; absent surfaces have none. -/
  surfaces : List (Nat × Bool)
  /-- The seat keyboard focus target (a wl_surface id), none at startup.
  The source never calls set_focus and focus_changed is a no-op
  (state.rs line 122). -/
  focus : Option Nat
  /-- The value of the global SERIAL_COUNTER (utils::SERIAL_COUNTER). -/
  serialCounter : Nat
deriving Repr, DecidableEq

/-- A platform input event delivered by winit (main.rs lines 149-151).
Only keyboard events are handled; everything else falls through the
if-let and is dropped. -/
inductive IEvent where
  | keyboard (keycode : Nat) (modifiedSym : Nat) (pressed : Bool) (time : Nat)
  | pointer (payload : Nat)
deriving Repr, DecidableEq

/-- A request arriving at the compositor: a new toplevel creation
(state.rs new_toplevel), a surface commit carrying the pending buffer
status (state.rs commit), or one frame-timer tick with its drained input
events and the elapsed time since server start (main.rs lines 144-212). -/
inductive Req where
  | newToplevel (sid : Nat)
  | commit (sid : Nat) (buffer : Bool)
  | tick (inputs : List IEvent) (elapsed : Nat)
deriving Repr, DecidableEq

/-- The result of the keyboard filter closure (smithay FilterResult). -/
inductive FilterResult where
  | intercept (token : Nat)
  | forward
deriving Repr, DecidableEq

/-- keysyms::KEY_t (0x074). -/
def KEY_t : Nat := 0x074

/-- keysyms::KEY_T (0x054). -/
def KEY_T : Nat := 0x054

/-- The key symbol the global binding compares against.  In main.rs line
163 the expression is keysym.modified_sym() == keysyms::KEY_t |
keysyms::KEY_T, and in Rust the bitwise or binds tighter than equality,
so the comparison is against the single value KEY_t | KEY_T = 0x074. -/
def boundSyms : Nat := Nat.lor KEY_t KEY_T

/-- The filter closure of main.rs lines 161-169: intercept with token 1
exactly when the key is pressed and its modified keysym equals
boundSyms; otherwise forward. -/
def keyFilter (pressed : Bool) (modifiedSym : Nat) : FilterResult :=
  if pressed && (modifiedSym == boundSyms) then FilterResult.intercept 1
  else FilterResult.forward

/-- Processing of one keyboard input event, main.rs lines 151-176: a
fresh serial is drawn from the global counter, the filter runs, a
forwarded event is delivered to the keyboard focus when one exists, and
the action token some 1 makes the event loop spawn the external
program. -/
def processKeyboard (s : CState) (modifiedSym : Nat) (pressed : Bool) :
    CState × List Ev :=
  let serial := s.serialCounter
  let s1 : CState := { s with serialCounter := serial + 1 }
  let action : Option Nat :=
    match keyFilter pressed modifiedSym with
    | FilterResult.intercept t => some t
    | FilterResult.forward => none
  let forwarded : List Ev :=
    match keyFilter pressed modifiedSym, s1.focus with
    | FilterResult.forward, some f =>
        [Ev.forwardKey serial modifiedSym pressed f]
    | _, _ => []
  let spawned : List Ev := if action = some 1 then [Ev.spawn] else []
  (s1, forwarded ++ spawned)

/-- Dispatch of one platform input event (main.rs lines 149-178): only
keyboard events are handled, every other event kind is ignored. -/
def processInput (s : CState) : IEvent → CState × List Ev
  | IEvent.keyboard _ sym pr _ => processKeyboard s sym pr
  | IEvent.pointer _ => (s, [])

/-- Draining all pending input events in order (dispatch_new_events). -/
def processInputs : CState → List IEvent → CState × List Ev
  | s, [] => (s, [])
  | s, e :: rest =>
      let r1 := processInput s e
      let r2 := processInputs r1.1 rest
      (r2.1, r1.2 ++ r2.2)

/-- Lookup of a surface's committed-buffer status. -/
def getSB : List (Nat × Bool) → Nat → Bool
  | [], _ => false
  | (k, v) :: t, sid => if k = sid then v else getSB t sid

/-- Update of a surface's committed-buffer status (the effect of
on_commit_buffer_handler making the pending buffer current). -/
def setSB : List (Nat × Bool) → Nat → Bool → List (Nat × Bool)
  | [], sid, b => [(sid, b)]
  | (k, v) :: t, sid, b =>
      if k = sid then (sid, b) :: t else (k, v) :: setSB t sid b

/-- The window lookup of state.rs lines 69-74: the first window in the
Space whose toplevel wl_surface is the given surface. -/
def findWL : List WindowM → Nat → Option WindowM
  | [], _ => none
  | w :: t, sid => if w.surface = sid then some w else findWL t sid

/-- The initial_configure_sent flag of the window owning the given
surface; false when no such window exists. -/
def windowFlagL (l : List WindowM) (sid : Nat) : Bool :=
  match findWL l sid with
  | some w => w.initial_configure_sent
  | none => false

/-- Marking initial_configure_sent on the windows of the given surface,
the effect send_pending_configure has on the shared
XdgToplevelSurfaceData of that surface. -/
def setFlagTrue (sid : Nat) (l : List WindowM) : List WindowM :=
  l.map (fun v =>
    if v.surface = sid then { v with initial_configure_sent := true } else v)

/-- The commit handler, state.rs lines 66-91: buffer bookkeeping first
(on_commit_buffer_handler), then, when a window of this surface is in
the Space and its initial_configure_sent flag is false, a pending
configure is sent, which marks the flag.  window.on_commit only updates
internal smithay bookkeeping and has no observable effect here. -/
def commit (s : CState) (sid : Nat) (buffer : Bool) : CState × List Ev :=
  let s1 : CState := { s with surfaces := setSB s.surfaces sid buffer }
  match findWL s1.space sid with
  | none => (s1, [])
  | some w =>
      if w.initial_configure_sent then (s1, [])
      else ({ s1 with space := setFlagTrue sid s1.space }, [Ev.configure sid])

/-- The new_toplevel handler, state.rs lines 138-141: the window is
mapped into the Space at (0,0) with activate = false; the seat keyboard
focus is not touched. -/
def new_toplevel (s : CState) (sid : Nat) : CState × List Ev :=
  ({ s with space := s.space ++ [⟨sid, false, (0, 0)⟩] }, [])

/-- The surface ids of the windows that contribute render elements to
render_output: the windows in the Space whose toplevel surface has a
current committed buffer (a window without a buffer yields no
WaylandSurfaceRenderElement). -/
def composedWindows (s : CState) : List Nat :=
  (s.space.filter (fun w => getSB s.surfaces w.surface)).map
    (fun w => w.surface)

/-- One frame-timer tick, main.rs lines 144-212, in source order: drain
and dispatch all input events (executing action tokens), bind the render
target, compose the mapped windows through render_output, submit the
frame, send one frame callback per Space element carrying the elapsed
time since server start, refresh the Space, flush clients. -/
def tick (s : CState) (ins : List IEvent) (elapsed : Nat) : CState × List Ev :=
  let s1 := (processInputs s ins).1
  let inputOut := (processInputs s ins).2
  (s1,
    inputOut
      ++ [Ev.bindTarget, Ev.renderComposite (composedWindows s1),
          Ev.submitFrame]
      ++ s1.space.map (fun w => Ev.frameCallback w.surface elapsed)
      ++ [Ev.refreshSpace, Ev.flushClients])

/-- One request applied to the state. -/
def applyReq (s : CState) : Req → CState × List Ev
  | Req.newToplevel sid => new_toplevel s sid
  | Req.commit sid b => commit s sid b
  | Req.tick ins t => tick s ins t

/-- A run of the event loop over a request sequence, with the full
emitted trace. -/
def runTrace : CState → List Req → CState × List Ev
  | s, [] => (s, [])
  | s, r :: rs =>
      let r1 := applyReq s r
      let r2 := runTrace r1.1 rs
      (r2.1, r1.2 ++ r2.2)

/-- The state after a run. -/
def runState (s : CState) (reqs : List Req) : CState := (runTrace s reqs).1

/-- The startup state: empty Space, no surfaces, no focus, counter 0. -/
def initState : CState := ⟨[], [], none, 0⟩

/-- Protocol well-formedness of one request at a state: a toplevel is
only created for a surface that has no window yet and no committed
buffer (the xdg-shell role and buffer preconditions the protocol library
enforces before new_toplevel runs). -/
def wfStep (s : CState) : Req → Bool
  | Req.newToplevel sid => (findWL s.space sid).isNone && !(getSB s.surfaces sid)
  | _ => true

/-- Protocol well-formedness of a request sequence from a state. -/
def wfFrom : CState → List Req → Bool
  | _, [] => true
  | s, r :: rs => wfStep s r && wfFrom (applyReq s r).1 rs

/-- Whether every window in the Space whose surface has a committed
buffer already has initial_configure_sent. -/
def invHolds (s : CState) : Bool :=
  s.space.all (fun w => !(getSB s.surfaces w.surface) || w.initial_configure_sent)

/-- The surface ids of the windows in a Space, in order. -/
def sids (l : List WindowM) : List Nat := l.map (fun w => w.surface)

/-- The inductive invariant behind the no-premature-visibility property:
every window whose surface has a committed buffer has already been sent
its initial configure, and no two windows share a toplevel surface. -/
def InvP (s : CState) : Prop :=
  (∀ w ∈ s.space, getSB s.surfaces w.surface = true
      → w.initial_configure_sent = true)
  ∧ (sids s.space).Nodup

/-- The serials carried by the forwarded key events of a trace. -/
def forwardSerials (evs : List Ev) : List Nat :=
  evs.filterMap (fun e =>
    match e with
    | Ev.forwardKey ser _ _ _ => some ser
    | _ => none)

/-- The frame callbacks of a trace, as window id and elapsed time. -/
def frameCallbacksOf (evs : List Ev) : List (Nat × Nat) :=
  evs.filterMap (fun e =>
    match e with
    | Ev.frameCallback wid t => some (wid, t)
    | _ => none)

/-- Whether an event belongs to the input-dispatch phase of a tick. -/
def isInputDispatchEv : Ev → Bool
  | Ev.forwardKey _ _ _ _ => true
  | Ev.spawn => true
  | _ => false

/-- The number of keyboard events in an input list. -/
def kbCount (ins : List IEvent) : Nat :=
  ins.countP (fun e =>
    match e with
    | IEvent.keyboard _ _ _ _ => true
    | _ => false)

/-- The number of keyboard events a request dispatches. -/
def kbCountReq : Req → Nat
  | Req.tick ins _ => kbCount ins
  | _ => 0

/-- The number of keyboard events a request sequence dispatches. -/
def kbCountReqs : List Req → Nat
  | [] => 0
  | r :: rs => kbCountReq r + kbCountReqs rs

/-- The states visited by a run, the start state included. -/
def statesFrom : CState → List Req → List CState
  | s, [] => [s]
  | s, r :: rs => s :: statesFrom (applyReq s r).1 rs

/-- The initial_configure_sent flag of one surface's window along a
run. -/
def flagTrace (s : CState) (reqs : List Req) (sid : Nat) : List Bool :=
  (statesFrom s reqs).map (fun st => windowFlagL st.space sid)

/-- The number of false-to-true transitions in a boolean trace. -/
def risingEdges : List Bool → Nat
  | [] => 0
  | [_] => 0
  | a :: b :: t =>
      (if a = false ∧ b = true then 1 else 0) + risingEdges (b :: t)

/-- Executing the action token produced by the filter, main.rs lines
172-176: token some 1 spawns the external program; ok says whether the
operating system spawn succeeds.  The source calls .expect on the spawn
result, so a failed spawn panics with the given message, modelled as the
error case; nothing else in the compositor state is read or written. -/
def runActionToken (action : Option Nat) (ok : Bool) (s : CState) :
    Except String (CState × List Ev) :=
  if action = some 1 then
    if ok then Except.ok (s, [Ev.spawn])
    else Except.error "Failed to spawn alacritty"
  else Except.ok (s, [])

/-! Basic state-shape lemmas. -/

theorem processKeyboard_state (s : CState) (sym : Nat) (pr : Bool) :
    (processKeyboard s sym pr).1 = { s with serialCounter := s.serialCounter + 1 } := rfl

theorem kbCount_nil : kbCount [] = 0 := rfl

theorem kbCount_cons_kb (kc sym : Nat) (pr : Bool) (t : Nat) (rest : List IEvent) :
    kbCount (IEvent.keyboard kc sym pr t :: rest) = kbCount rest + 1 := by
  simp [kbCount, List.countP_cons]

theorem kbCount_cons_ptr (d : Nat) (rest : List IEvent) :
    kbCount (IEvent.pointer d :: rest) = kbCount rest := by
  simp [kbCount, List.countP_cons]

theorem processInputs_state (ins : List IEvent) :
    ∀ s : CState, (processInputs s ins).1
      = { s with serialCounter := s.serialCounter + kbCount ins } := by
  induction ins with
  | nil => intro s; simp [processInputs, kbCount_nil]
  | cons e rest ih =>
      intro s
      cases e with
      | keyboard kc sym pr t =>
          simp only [processInputs, processInput, processKeyboard_state]
          rw [ih, kbCount_cons_kb]
          simp [Nat.add_assoc, Nat.add_comm 1 (kbCount rest)]
      | pointer d =>
          simp only [processInputs, processInput]
          rw [ih, kbCount_cons_ptr]

theorem tick_state (s : CState) (ins : List IEvent) (t : Nat) :
    (tick s ins t).1 = (processInputs s ins).1 := rfl

theorem commit_parts (s : CState) (sid : Nat) (b : Bool) :
    ((commit s sid b).1).focus = s.focus
    ∧ ((commit s sid b).1).serialCounter = s.serialCounter
    ∧ ((commit s sid b).1).surfaces = setSB s.surfaces sid b
    ∧ (((commit s sid b).1).space = s.space
        ∨ ((commit s sid b).1).space = setFlagTrue sid s.space) := by
  unfold commit
  cases h : findWL s.space sid with
  | none => simp [h]
  | some w =>
      simp only [h]
      by_cases hw : w.initial_configure_sent <;> simp [hw]

theorem applyReq_focus (r : Req) (s : CState) :
    ((applyReq s r).1).focus = s.focus := by
  cases r with
  | newToplevel sid => rfl
  | commit sid b => exact (commit_parts s sid b).1
  | tick ins t =>
      show ((tick s ins t).1).focus = s.focus
      rw [tick_state, processInputs_state]

theorem runState_focus (reqs : List Req) :
    ∀ s : CState, (runState s reqs).focus = s.focus := by
  induction reqs with
  | nil => intro s; rfl
  | cons r rs ih =>
      intro s
      show ((runTrace s (r :: rs)).1).focus = s.focus
      simp only [runTrace]
      rw [show (runTrace (applyReq s r).1 rs).1 = runState (applyReq s r).1 rs from rfl]
      rw [ih, applyReq_focus]

/-! Window-flag lemmas. -/

theorem findWL_cons (a : WindowM) (t : List WindowM) (sid : Nat) :
    findWL (a :: t) sid = if a.surface = sid then some a else findWL t sid := rfl

theorem windowFlagL_cons (a : WindowM) (t : List WindowM) (sid : Nat) :
    windowFlagL (a :: t) sid
      = if a.surface = sid then a.initial_configure_sent
        else windowFlagL t sid := by
  unfold windowFlagL
  rw [findWL_cons]
  by_cases h : a.surface = sid <;> simp [h]

theorem windowFlagL_append_false (l : List WindowM) (w0 : WindowM) (sid : Nat)
    (h : w0.initial_configure_sent = false) :
    windowFlagL (l ++ [w0]) sid = windowFlagL l sid := by
  induction l with
  | nil =>
      show windowFlagL [w0] sid = windowFlagL [] sid
      rw [windowFlagL_cons]
      by_cases hs : w0.surface = sid <;> simp [hs, h, windowFlagL, findWL]
  | cons a t ih =>
      rw [List.cons_append, windowFlagL_cons, windowFlagL_cons, ih]

theorem windowFlagL_append_true (l l2 : List WindowM) (sid : Nat)
    (h : windowFlagL l sid = true) : windowFlagL (l ++ l2) sid = true := by
  induction l with
  | nil => simp [windowFlagL, findWL] at h
  | cons a t ih =>
      rw [List.cons_append, windowFlagL_cons]
      rw [windowFlagL_cons] at h
      by_cases hs : a.surface = sid <;> simp [hs] at h ⊢
      · exact h
      · exact ih h

theorem setFlagTrue_cons (sid : Nat) (a : WindowM) (t : List WindowM) :
    setFlagTrue sid (a :: t)
      = (if a.surface = sid then { a with initial_configure_sent := true }
         else a) :: setFlagTrue sid t := rfl

theorem windowFlagL_setFlagTrue_other (l : List WindowM) (sid sid2 : Nat)
    (h : sid2 ≠ sid) :
    windowFlagL (setFlagTrue sid l) sid2 = windowFlagL l sid2 := by
  induction l with
  | nil => rfl
  | cons a t ih =>
      rw [setFlagTrue_cons, windowFlagL_cons, windowFlagL_cons, ih]
      by_cases hs : a.surface = sid
      · have h2 : sid ≠ sid2 := Ne.symm h
        simp [hs, h2]
      · simp [hs]

theorem windowFlagL_setFlagTrue_self (l : List WindowM) (sid : Nat) :
    windowFlagL (setFlagTrue sid l) sid = (findWL l sid).isSome := by
  induction l with
  | nil => rfl
  | cons a t ih =>
      rw [setFlagTrue_cons, windowFlagL_cons]
      by_cases hs : a.surface = sid <;> simp [findWL, hs]
      exact ih

/-! Per-request flag behaviour. -/

theorem tick_space (s : CState) (ins : List IEvent) (t : Nat) :
    ((tick s ins t).1).space = s.space := by
  rw [tick_state, processInputs_state]

theorem flag_mono_step (r : Req) (st : CState) (sid : Nat)
    (h : windowFlagL st.space sid = true) :
    windowFlagL ((applyReq st r).1).space sid = true := by
  cases r with
  | newToplevel sid2 =>
      show windowFlagL (st.space ++ [⟨sid2, false, (0, 0)⟩]) sid = true
      exact windowFlagL_append_true _ _ _ h
  | tick ins t =>
      show windowFlagL ((tick st ins t).1).space sid = true
      rw [tick_space]; exact h
  | commit sid2 b =>
      show windowFlagL ((commit st sid2 b).1).space sid = true
      rcases (commit_parts st sid2 b).2.2.2 with hsp | hsp
      · rw [hsp]; exact h
      · rw [hsp]
        by_cases he : sid = sid2
        · subst he
          rw [windowFlagL_setFlagTrue_self]
          unfold windowFlagL at h
          cases hf : findWL st.space sid with
          | none => rw [hf] at h; simp at h
          | some w => simp
        · rw [windowFlagL_setFlagTrue_other _ _ _ he]; exact h

theorem flag_rise_step (r : Req) (st : CState) (sid : Nat)
    (h0 : windowFlagL st.space sid = false)
    (h1 : windowFlagL ((applyReq st r).1).space sid = true) :
    ∃ b2, r = Req.commit sid b2 := by
  cases r with
  | newToplevel sid2 =>
      exfalso
      have h2 : windowFlagL (st.space ++ [⟨sid2, false, (0, 0)⟩]) sid
          = windowFlagL st.space sid :=
        windowFlagL_append_false st.space ⟨sid2, false, (0, 0)⟩ sid rfl
      have h3 : windowFlagL (st.space ++ [⟨sid2, false, (0, 0)⟩]) sid = true := h1
      rw [h2, h0] at h3
      exact Bool.false_ne_true h3
  | tick ins t =>
      exfalso
      have h3 : windowFlagL ((tick st ins t).1).space sid = true := h1
      rw [tick_space, h0] at h3
      exact Bool.false_ne_true h3
  | commit sid2 b =>
      by_cases he : sid = sid2
      · subst he; exact ⟨b, rfl⟩
      · exfalso
        have h3 : windowFlagL ((commit st sid2 b).1).space sid = true := h1
        rcases (commit_parts st sid2 b).2.2.2 with hsp | hsp
        · rw [hsp, h0] at h3; exact Bool.false_ne_true h3
        · rw [hsp, windowFlagL_setFlagTrue_other _ _ _ he, h0] at h3
          exact Bool.false_ne_true h3

theorem commit_first_configure (s : CState) (sid : Nat) (b : Bool)
    (hp : (findWL s.space sid).isSome = true)
    (hf : windowFlagL s.space sid = false) :
    (commit s sid b).2 = [Ev.configure sid]
    ∧ windowFlagL ((commit s sid b).1).space sid = true := by
  unfold commit
  cases h : findWL s.space sid with
  | none => rw [h] at hp; simp at hp
  | some w =>
      have hw : w.initial_configure_sent = false := by
        unfold windowFlagL at hf; rw [h] at hf; exact hf
      refine ⟨by simp [h, hw], ?_⟩
      simp only [h, hw]
      simp [windowFlagL_setFlagTrue_self, h]

theorem commit_no_reconfigure (s : CState) (sid : Nat) (b : Bool)
    (hf : windowFlagL s.space sid = true) :
    (commit s sid b).2 = [] := by
  unfold commit
  cases h : findWL s.space sid with
  | none => simp [h]
  | some w =>
      have hw : w.initial_configure_sent = true := by
        unfold windowFlagL at hf; rwa [h] at hf
      simp [h, hw]

/-! Rising-edge counting. -/

theorem risingEdges_cons_true (t : List Bool)
    (h : List.Chain' (fun a b => a = true → b = true) (true :: t)) :
    risingEdges (true :: t) = 0 := by
  induction t with
  | nil => rfl
  | cons b t2 ih =>
      have hb : b = true := (List.chain'_cons.1 h).1 rfl
      subst hb
      have ht : List.Chain' (fun a b => a = true → b = true) (true :: t2) :=
        (List.chain'_cons.1 h).2
      show (if True ∧ False then 1 else 0) + risingEdges (true :: t2) = 0
      rw [ih ht]
      simp

theorem risingEdges_le_one (l : List Bool)
    (h : List.Chain' (fun a b => a = true → b = true) l) :
    risingEdges l ≤ 1 := by
  induction l with
  | nil => simp [risingEdges]
  | cons a t ih =>
      cases t with
      | nil => simp [risingEdges]
      | cons b t2 =>
          have hab := (List.chain'_cons.1 h).1
          have ht := (List.chain'_cons.1 h).2
          cases a with
          | true =>
              have hb : b = true := hab rfl
              subst hb
              show (if true = false ∧ true = true then 1 else 0)
                + risingEdges (true :: t2) ≤ 1
              rw [risingEdges_cons_true t2 ht]
              simp
          | false =>
              cases b with
              | true =>
                  show (if false = false ∧ true = true then 1 else 0)
                    + risingEdges (true :: t2) ≤ 1
                  rw [risingEdges_cons_true t2 ht]
                  simp
              | false =>
                  show (if false = false ∧ false = true then 1 else 0)
                    + risingEdges (false :: t2) ≤ 1
                  simpa using ih ht

theorem statesFrom_chain (P : CState → CState → Prop)
    (hP : ∀ st r, P st (applyReq st r).1) :
    ∀ (reqs : List Req) (s : CState), List.Chain' P (statesFrom s reqs) := by
  intro reqs
  induction reqs with
  | nil => intro s; simp [statesFrom]
  | cons r rs ih =>
      intro s
      show List.Chain' P (s :: statesFrom (applyReq s r).1 rs)
      rw [List.chain'_cons']
      refine ⟨?_, ih (applyReq s r).1⟩
      intro y hy
      have hh : (statesFrom (applyReq s r).1 rs).head?
          = some (applyReq s r).1 := by
        cases rs <;> rfl
      rw [hh, Option.mem_def, Option.some.injEq] at hy
      rw [← hy]
      exact hP s r

/-! Surface-table and surface-id lemmas. -/

theorem getSB_setSB_self (l : List (Nat × Bool)) (sid : Nat) (b : Bool) :
    getSB (setSB l sid b) sid = b := by
  induction l with
  | nil => simp [setSB, getSB]
  | cons a t ih =>
      obtain ⟨k, v⟩ := a
      by_cases h : k = sid <;> simp [setSB, getSB, h, ih]

theorem getSB_setSB_other (l : List (Nat × Bool)) (sid sid2 : Nat) (b : Bool)
    (h : sid2 ≠ sid) : getSB (setSB l sid b) sid2 = getSB l sid2 := by
  induction l with
  | nil => simp [setSB, getSB, Ne.symm h]
  | cons a t ih =>
      obtain ⟨k, v⟩ := a
      by_cases hk : k = sid
      · subst hk
        simp [setSB, getSB, Ne.symm h]
      · simp [setSB, getSB, hk, ih]

theorem sids_cons (a : WindowM) (t : List WindowM) :
    sids (a :: t) = a.surface :: sids t := rfl

theorem sids_append (l1 l2 : List WindowM) :
    sids (l1 ++ l2) = sids l1 ++ sids l2 := by
  unfold sids; exact List.map_append _ l1 l2

theorem sids_setFlagTrue (sid : Nat) (l : List WindowM) :
    sids (setFlagTrue sid l) = sids l := by
  induction l with
  | nil => rfl
  | cons a t ih =>
      rw [setFlagTrue_cons, sids_cons, sids_cons, ih]
      by_cases hs : a.surface = sid <;> simp [hs]

theorem findWL_none_not_mem (l : List WindowM) (sid : Nat)
    (h : findWL l sid = none) : sid ∉ sids l := by
  induction l with
  | nil => simp [sids]
  | cons a t ih =>
      rw [findWL_cons] at h
      by_cases hs : a.surface = sid
      · simp [hs] at h
      · rw [if_neg hs] at h
        rw [sids_cons]
        intro hmem
        rcases List.mem_cons.1 hmem with he | he
        · exact hs he.symm
        · exact ih h he

theorem findWL_mem (l : List WindowM) (sid : Nat) (w : WindowM)
    (h : findWL l sid = some w) : w ∈ l ∧ w.surface = sid := by
  induction l with
  | nil => simp [findWL] at h
  | cons a t ih =>
      rw [findWL_cons] at h
      by_cases hs : a.surface = sid
      · rw [if_pos hs] at h
        have he := Option.some.inj h
        subst he
        exact ⟨List.mem_cons_self a t, hs⟩
      · rw [if_neg hs] at h
        obtain ⟨hm, he⟩ := ih h
        exact ⟨List.mem_cons_of_mem a hm, he⟩

theorem findWL_isSome_of_mem (l : List WindowM) (sid : Nat) (v : WindowM)
    (hv : v ∈ l) (hs : v.surface = sid) : (findWL l sid).isSome = true := by
  induction l with
  | nil => simp at hv
  | cons a t ih =>
      rw [findWL_cons]
      by_cases ha : a.surface = sid
      · simp [ha]
      · rw [if_neg ha]
        rcases List.mem_cons.1 hv with he | he
        · exact absurd (he ▸ hs) ha
        · exact ih he

theorem findWL_unique (l : List WindowM) (sid : Nat) (w w0 : WindowM)
    (hnd : (sids l).Nodup) (hw : w ∈ l) (hs : w.surface = sid)
    (h : findWL l sid = some w0) : w = w0 := by
  induction l with
  | nil => simp at hw
  | cons a t ih =>
      rw [findWL_cons] at h
      rw [sids_cons, List.nodup_cons] at hnd
      by_cases ha : a.surface = sid
      · rw [if_pos ha] at h
        have he0 := Option.some.inj h
        subst he0
        rcases List.mem_cons.1 hw with he | he
        · exact he
        · exfalso
          apply hnd.1
          rw [ha, ← hs]
          exact List.mem_map.2 ⟨w, he, rfl⟩
      · rw [if_neg ha] at h
        rcases List.mem_cons.1 hw with he | he
        · exact absurd (he ▸ hs) ha
        · exact ih hnd.2 he h

/-! Invariant preservation. -/

theorem inv_step (r : Req) (s : CState) (hwf : wfStep s r = true)
    (h : InvP s) : InvP (applyReq s r).1 := by
  obtain ⟨h1, h2⟩ := h
  cases r with
  | newToplevel sid =>
      have hwf2 : ((findWL s.space sid).isNone
          && !(getSB s.surfaces sid)) = true := hwf
      rw [Bool.and_eq_true] at hwf2
      obtain ⟨hA, hB⟩ := hwf2
      have hn : findWL s.space sid = none := by
        cases hfw : findWL s.space sid
        · rfl
        · rw [hfw] at hA; simp at hA
      have hb : getSB s.surfaces sid = false := by
        cases hg : getSB s.surfaces sid
        · rfl
        · rw [hg] at hB; simp at hB
      constructor
      · intro w hw hbuf
        rcases List.mem_append.1 hw with hw2 | hw2
        · exact h1 w hw2 hbuf
        · have he : w = ⟨sid, false, (0, 0)⟩ := by simpa using hw2
          rw [he] at hbuf
          have hbuf2 : getSB s.surfaces sid = true := hbuf
          rw [hb] at hbuf2
          exact absurd hbuf2 (by simp)
      · show (sids (s.space ++ [⟨sid, false, (0, 0)⟩])).Nodup
        rw [sids_append]
        rw [List.nodup_append]
        refine ⟨h2, List.nodup_singleton _, ?_⟩
        intro x hx hx2
        have hxe : x = sid := by simpa [sids] using hx2
        exact findWL_none_not_mem s.space sid hn (hxe ▸ hx)
  | commit sid b =>
      show InvP (commit s sid b).1
      cases hf : findWL s.space sid with
      | none =>
          have hc : (commit s sid b).1
              = { s with surfaces := setSB s.surfaces sid b } := by
            unfold commit; simp [hf]
          have hnm := findWL_none_not_mem s.space sid hf
          constructor
          · intro w hw hbuf
            rw [hc] at hw hbuf
            have hws : w.surface ≠ sid := by
              intro he
              exact hnm (he ▸ List.mem_map.2 ⟨w, hw, rfl⟩)
            have hbuf2 : getSB (setSB s.surfaces sid b) w.surface = true := hbuf
            rw [getSB_setSB_other _ _ _ _ hws] at hbuf2
            exact h1 w hw hbuf2
          · rw [hc]; exact h2
      | some w0 =>
          by_cases hw0 : w0.initial_configure_sent
          · have hc : (commit s sid b).1
                = { s with surfaces := setSB s.surfaces sid b } := by
              unfold commit; simp [hf, hw0]
            constructor
            · intro w hw hbuf
              rw [hc] at hw hbuf
              by_cases hws : w.surface = sid
              · have he : w = w0 := findWL_unique s.space sid w w0 h2 hw hws hf
                rw [he]; exact hw0
              · have hbuf2 : getSB (setSB s.surfaces sid b) w.surface = true := hbuf
                rw [getSB_setSB_other _ _ _ _ hws] at hbuf2
                exact h1 w hw hbuf2
            · rw [hc]; exact h2
          · have hc : (commit s sid b).1
                = { s with space := setFlagTrue sid s.space,
                           surfaces := setSB s.surfaces sid b } := by
              unfold commit; simp [hf, hw0]
            constructor
            · intro w hw hbuf
              rw [hc] at hw hbuf
              rcases List.mem_map.1 hw with ⟨v, hv, hveq⟩
              by_cases hvs : v.surface = sid
              · rw [← hveq]; simp [hvs]
              · have hflag : w.initial_configure_sent = v.initial_configure_sent := by
                  rw [← hveq]; simp [hvs]
                have hwsf : w.surface = v.surface := by
                  rw [← hveq]; simp [hvs]
                rw [hflag]
                apply h1 v hv
                have hbuf2 : getSB (setSB s.surfaces sid b) w.surface = true := hbuf
                rw [hwsf] at hbuf2
                rwa [getSB_setSB_other _ _ _ _ hvs] at hbuf2
            · rw [hc]
              show (sids (setFlagTrue sid s.space)).Nodup
              rw [sids_setFlagTrue]
              exact h2
  | tick ins t =>
      have hc : (applyReq s (Req.tick ins t)).1
          = { s with serialCounter := s.serialCounter + kbCount ins } := by
        show (tick s ins t).1 = _
        rw [tick_state, processInputs_state]
      rw [hc]
      exact ⟨h1, h2⟩

theorem inv_run (reqs : List Req) :
    ∀ s : CState, wfFrom s reqs = true → InvP s → InvP (runState s reqs) := by
  induction reqs with
  | nil => intro s _ h; exact h
  | cons r rs ih =>
      intro s hwf h
      have hsplit : wfStep s r = true ∧ wfFrom (applyReq s r).1 rs = true := by
        have hw2 : (wfStep s r && wfFrom (applyReq s r).1 rs) = true := hwf
        rwa [Bool.and_eq_true] at hw2
      show InvP (runState (applyReq s r).1 rs)
      exact ih (applyReq s r).1 hsplit.2 (inv_step r s hsplit.1 h)

theorem invHolds_of_inv (s : CState)
    (h : ∀ w ∈ s.space, getSB s.surfaces w.surface = true
        → w.initial_configure_sent = true) :
    invHolds s = true := by
  unfold invHolds
  rw [List.all_eq_true]
  intro w hw
  cases hbuf : getSB s.surfaces w.surface
  · simp [hbuf]
  · simp [hbuf, h w hw hbuf]

theorem flag_of_composed (s : CState)
    (h1 : ∀ w ∈ s.space, getSB s.surfaces w.surface = true
        → w.initial_configure_sent = true)
    (wid : Nat) (hw : wid ∈ composedWindows s) :
    windowFlagL s.space wid = true := by
  unfold composedWindows at hw
  rcases List.mem_map.1 hw with ⟨v, hv, hveq⟩
  rcases List.mem_filter.1 hv with ⟨hvmem, hvbuf⟩
  have hsome := findWL_isSome_of_mem s.space wid v hvmem hveq
  cases hfw : findWL s.space wid with
  | none => rw [hfw] at hsome; simp at hsome
  | some w =>
      obtain ⟨hwmem, hws⟩ := findWL_mem _ _ _ hfw
      unfold windowFlagL
      rw [hfw]
      apply h1 w hwmem
      rw [hws, ← hveq]
      exact hvbuf

/-! Trace classification lemmas. -/

theorem processKeyboard_out_dispatch (s : CState) (sym : Nat) (pr : Bool) :
    ∀ e ∈ (processKeyboard s sym pr).2, isInputDispatchEv e = true := by
  intro e he
  cases hk : keyFilter pr sym with
  | intercept t =>
      by_cases ht : t = 1
      · subst ht
        simp [processKeyboard, hk] at he
        rw [he]
        rfl
      · simp [processKeyboard, hk, ht] at he
  | forward =>
      cases hfo : s.focus with
      | none => simp [processKeyboard, hk, hfo] at he
      | some f =>
          simp [processKeyboard, hk, hfo] at he
          rw [he]
          rfl

theorem processInputs_out_dispatch (ins : List IEvent) :
    ∀ s : CState, ∀ e ∈ (processInputs s ins).2, isInputDispatchEv e = true := by
  induction ins with
  | nil => intro s e he; simp [processInputs] at he
  | cons ev rest ih =>
      intro s e he
      cases ev with
      | keyboard kc sym pr t =>
          have heq : (processInputs s (IEvent.keyboard kc sym pr t :: rest)).2
              = (processKeyboard s sym pr).2
                ++ (processInputs (processKeyboard s sym pr).1 rest).2 := rfl
          rw [heq] at he
          rcases List.mem_append.1 he with h1 | h1
          · exact processKeyboard_out_dispatch s sym pr e h1
          · exact ih (processKeyboard s sym pr).1 e h1
      | pointer d =>
          have heq : (processInputs s (IEvent.pointer d :: rest)).2
              = (processInputs s rest).2 := rfl
          rw [heq] at he
          exact ih s e he

theorem frameCallbacksOf_append (l1 l2 : List Ev) :
    frameCallbacksOf (l1 ++ l2) = frameCallbacksOf l1 ++ frameCallbacksOf l2 := by
  unfold frameCallbacksOf
  exact List.filterMap_append l1 l2 _

theorem forwardSerials_append (l1 l2 : List Ev) :
    forwardSerials (l1 ++ l2) = forwardSerials l1 ++ forwardSerials l2 := by
  unfold forwardSerials
  exact List.filterMap_append l1 l2 _

theorem no_callbacks_of_dispatch (evs : List Ev)
    (h : ∀ e ∈ evs, isInputDispatchEv e = true) :
    frameCallbacksOf evs = [] := by
  induction evs with
  | nil => rfl
  | cons a t ih =>
      have ha := h a (List.mem_cons_self a t)
      have ht : ∀ e ∈ t, isInputDispatchEv e = true :=
        fun e he => h e (List.mem_cons_of_mem a he)
      cases a <;> simp [isInputDispatchEv] at ha <;>
        simpa [frameCallbacksOf, List.filterMap_cons] using ih ht

theorem frameCallbacksOf_cbs (l : List WindowM) (t : Nat) :
    frameCallbacksOf (l.map (fun w => Ev.frameCallback w.surface t))
      = l.map (fun w => (w.surface, t)) := by
  induction l with
  | nil => rfl
  | cons a tl ih =>
      simpa [frameCallbacksOf, List.filterMap_cons] using ih

theorem forwardSerials_cbs (l : List WindowM) (t : Nat) :
    forwardSerials (l.map (fun w => Ev.frameCallback w.surface t)) = [] := by
  induction l with
  | nil => rfl
  | cons a tl ih =>
      rw [List.map_cons]
      unfold forwardSerials at ih ⊢
      rw [List.filterMap_cons]
      exact ih

/-! Serial-counter lemmas. -/

theorem chain_lt_append (l1 l2 : List Nat) (m : Nat)
    (h1 : List.Chain' (· < ·) l1) (h2 : List.Chain' (· < ·) l2)
    (hb1 : ∀ x ∈ l1, x < m) (hb2 : ∀ y ∈ l2, m ≤ y) :
    List.Chain' (· < ·) (l1 ++ l2) := by
  induction l1 with
  | nil => exact h2
  | cons a t ih =>
      rw [List.cons_append, List.chain'_cons']
      constructor
      · intro y hy
        cases t with
        | nil =>
            have hy2 : y ∈ l2 := List.mem_of_mem_head? (by simpa using hy)
            have hm1 : a < m := hb1 a (List.mem_cons_self a [])
            have hm2 : m ≤ y := hb2 y hy2
            omega
        | cons b t2 =>
            have hy2 : b = y := by simpa using hy
            rw [← hy2]
            exact (List.chain'_cons.1 h1).1
      · exact ih ((List.chain'_cons'.1 h1).2)
          (fun x hx => hb1 x (List.mem_cons_of_mem a hx))

theorem processKeyboard_serials (s : CState) (sym : Nat) (pr : Bool) :
    forwardSerials (processKeyboard s sym pr).2 = []
    ∨ forwardSerials (processKeyboard s sym pr).2 = [s.serialCounter] := by
  cases hk : keyFilter pr sym with
  | intercept t =>
      left
      by_cases ht : t = 1 <;> simp [processKeyboard, hk, ht, forwardSerials]
  | forward =>
      cases hfo : s.focus with
      | none => left; simp [processKeyboard, hk, hfo, forwardSerials]
      | some f => right; simp [processKeyboard, hk, hfo, forwardSerials]

theorem processInputs_serials (ins : List IEvent) :
    ∀ s : CState,
      List.Chain' (· < ·) (forwardSerials (processInputs s ins).2)
      ∧ ∀ x ∈ forwardSerials (processInputs s ins).2,
          s.serialCounter ≤ x ∧ x < s.serialCounter + kbCount ins := by
  induction ins with
  | nil =>
      intro s
      exact ⟨by simp [processInputs, forwardSerials],
        by simp [processInputs, forwardSerials]⟩
  | cons ev rest ih =>
      intro s
      cases ev with
      | pointer d =>
          have heq : (processInputs s (IEvent.pointer d :: rest)).2
              = (processInputs s rest).2 := rfl
          rw [heq, kbCount_cons_ptr]
          exact ih s
      | keyboard kc sym pr t =>
          have heq : (processInputs s (IEvent.keyboard kc sym pr t :: rest)).2
              = (processKeyboard s sym pr).2
                ++ (processInputs (processKeyboard s sym pr).1 rest).2 := rfl
          have hcnt : ((processKeyboard s sym pr).1).serialCounter
              = s.serialCounter + 1 := by rw [processKeyboard_state]
          have hrest := ih (processKeyboard s sym pr).1
          rw [heq, forwardSerials_append, kbCount_cons_kb]
          rcases processKeyboard_serials s sym pr with hps | hps
          · rw [hps, List.nil_append]
            refine ⟨hrest.1, ?_⟩
            intro x hx
            have := hrest.2 x hx
            rw [hcnt] at this
            omega
          · rw [hps]
            constructor
            · apply chain_lt_append [s.serialCounter] _ (s.serialCounter + 1)
                (List.chain'_singleton _) hrest.1
              · intro x hx
                have : x = s.serialCounter := by simpa using hx
                omega
              · intro y hy
                have := hrest.2 y hy
                rw [hcnt] at this
                omega
            · intro x hx
              rcases List.mem_append.1 hx with hx1 | hx1
              · have : x = s.serialCounter := by simpa using hx1
                omega
              · have := hrest.2 x hx1
                rw [hcnt] at this
                omega

theorem commit_out_cases (s : CState) (sid : Nat) (b : Bool) :
    (commit s sid b).2 = [] ∨ (commit s sid b).2 = [Ev.configure sid] := by
  unfold commit
  cases hf : findWL s.space sid with
  | none => left; simp [hf]
  | some w =>
      by_cases hw : w.initial_configure_sent
      · left; simp [hf, hw]
      · right; simp [hf, hw]

theorem applyReq_serials (r : Req) (s : CState) :
    ((applyReq s r).1).serialCounter = s.serialCounter + kbCountReq r
    ∧ List.Chain' (· < ·) (forwardSerials (applyReq s r).2)
    ∧ ∀ x ∈ forwardSerials (applyReq s r).2,
        s.serialCounter ≤ x ∧ x < s.serialCounter + kbCountReq r := by
  cases r with
  | newToplevel sid =>
      refine ⟨by simp [kbCountReq, applyReq, new_toplevel], ?_, ?_⟩
      · simp [applyReq, new_toplevel, forwardSerials]
      · simp [applyReq, new_toplevel, forwardSerials]
  | commit sid b =>
      refine ⟨?_, ?_, ?_⟩
      · show ((commit s sid b).1).serialCounter = s.serialCounter + kbCountReq (Req.commit sid b)
        rw [(commit_parts s sid b).2.1]
        simp [kbCountReq]
      · show List.Chain' (· < ·) (forwardSerials (commit s sid b).2)
        rcases commit_out_cases s sid b with hco | hco <;>
          simp [hco, forwardSerials]
      · show ∀ x ∈ forwardSerials (commit s sid b).2, _
        rcases commit_out_cases s sid b with hco | hco <;>
          simp [hco, forwardSerials]
  | tick ins t =>
      have hout : (tick s ins t).2
          = (processInputs s ins).2
            ++ ([Ev.bindTarget,
                Ev.renderComposite (composedWindows (processInputs s ins).1),
                Ev.submitFrame]
              ++ ((processInputs s ins).1).space.map
                  (fun w => Ev.frameCallback w.surface t)
              ++ [Ev.refreshSpace, Ev.flushClients]) := by
        show (tick s ins t).2 = _
        simp [tick]
      have htail : forwardSerials
          ([Ev.bindTarget,
              Ev.renderComposite (composedWindows (processInputs s ins).1),
              Ev.submitFrame]
            ++ ((processInputs s ins).1).space.map
                (fun w => Ev.frameCallback w.surface t)
            ++ [Ev.refreshSpace, Ev.flushClients]) = [] := by
        rw [forwardSerials_append, forwardSerials_append, forwardSerials_cbs]
        simp [forwardSerials]
      have hps := processInputs_serials ins s
      refine ⟨?_, ?_, ?_⟩
      · show ((tick s ins t).1).serialCounter = _
        rw [tick_state, processInputs_state]
        rfl
      · show List.Chain' (· < ·) (forwardSerials (tick s ins t).2)
        rw [hout, forwardSerials_append, htail, List.append_nil]
        exact hps.1
      · show ∀ x ∈ forwardSerials (tick s ins t).2, _
        rw [hout, forwardSerials_append, htail, List.append_nil]
        exact hps.2

theorem runTrace_serials (reqs : List Req) :
    ∀ s : CState,
      ((runTrace s reqs).1).serialCounter = s.serialCounter + kbCountReqs reqs
      ∧ List.Chain' (· < ·) (forwardSerials (runTrace s reqs).2)
      ∧ ∀ x ∈ forwardSerials (runTrace s reqs).2,
          s.serialCounter ≤ x ∧ x < s.serialCounter + kbCountReqs reqs := by
  induction reqs with
  | nil =>
      intro s
      exact ⟨by simp [runTrace, kbCountReqs],
        by simp [runTrace, forwardSerials],
        by simp [runTrace, forwardSerials]⟩
  | cons r rs ih =>
      intro s
      have heq2 : (runTrace s (r :: rs)).2
          = (applyReq s r).2 ++ (runTrace (applyReq s r).1 rs).2 := rfl
      have heq1 : (runTrace s (r :: rs)).1
          = (runTrace (applyReq s r).1 rs).1 := rfl
      have har := applyReq_serials r s
      have hr := ih (applyReq s r).1
      have hcnt : kbCountReqs (r :: rs) = kbCountReq r + kbCountReqs rs := rfl
      refine ⟨?_, ?_, ?_⟩
      · rw [heq1, hr.1, har.1, hcnt]
        omega
      · rw [heq2, forwardSerials_append]
        apply chain_lt_append _ _ (s.serialCounter + kbCountReq r)
          har.2.1 hr.2.1
        · intro x hx
          exact ((har.2.2) x hx).2
        · intro y hy
          have := (hr.2.2) y hy
          rw [har.1] at this
          exact this.1
      · rw [heq2, forwardSerials_append]
        intro x hx
        rcases List.mem_append.1 hx with hx1 | hx1
        · have := har.2.2 x hx1
          rw [hcnt]
          omega
        · have := hr.2.2 x hx1
          rw [har.1] at this
          rw [hcnt]
          omega

/-! Claim theorems. -/

/-- C1: a commit finding the owning window with initial_configure_sent
still false sends exactly one configure and makes the flag true; a commit
after the flag is true sends none; no request other than a commit on that
window's surface ever raises the flag, the flag never falls back, and
along any run the false-to-true transition happens at most once. -/
theorem configure_once (s : CState) (reqs : List Req) (sid : Nat) (b : Bool) :
    (∀ r st, windowFlagL st.space sid = true →
        windowFlagL ((applyReq st r).1).space sid = true)
    ∧ (∀ r st, windowFlagL st.space sid = false →
        windowFlagL ((applyReq st r).1).space sid = true →
        ∃ b2, r = Req.commit sid b2)
    ∧ ((findWL s.space sid).isSome = true → windowFlagL s.space sid = false →
        (commit s sid b).2 = [Ev.configure sid]
        ∧ windowFlagL ((commit s sid b).1).space sid = true)
    ∧ (windowFlagL s.space sid = true → (commit s sid b).2 = [])
    ∧ risingEdges (flagTrace s reqs sid) ≤ 1 := by
  refine ⟨fun r st h => flag_mono_step r st sid h,
          fun r st h0 h1 => flag_rise_step r st sid h0 h1,
          fun hp hf => commit_first_configure s sid b hp hf,
          fun hf => commit_no_reconfigure s sid b hf, ?_⟩
  apply risingEdges_le_one
  unfold flagTrace
  rw [List.chain'_map]
  exact statesFrom_chain
    (fun st st2 => windowFlagL st.space sid = true
      → windowFlagL st2.space sid = true)
    (fun st r h => flag_mono_step r st sid h) reqs s

/-- Witness for C1: the first commit on a freshly created window emits
exactly one configure and raises the flag. -/
theorem configure_once_witness :
    (commit (new_toplevel initState 1).1 1 true).2 = [Ev.configure 1]
    ∧ windowFlagL ((commit (new_toplevel initState 1).1 1 true).1).space 1
        = true :=
  (configure_once (new_toplevel initState 1).1 [] 1 true).2.2.1
    (by decide) (by decide)

/-- C2: along any protocol-well-formed run from startup, every window
whose surface holds a committed buffer has initial_configure_sent, so a
window never contributes to the composition render_output performs
before its flag is true — in particular, at the render step of the next
tick (after its input phase) every composed window is configured.  A
freshly created toplevel has no buffer and no flag, hence is not
composed before its first configure. -/
theorem no_premature_composition (reqs : List Req) (ins : List IEvent)
    (h : wfFrom initState reqs = true) :
    invHolds (runState initState reqs) = true
    ∧ ∀ wid ∈ composedWindows ((processInputs (runState initState reqs) ins).1),
        windowFlagL ((processInputs (runState initState reqs) ins).1).space wid
          = true := by
  have hinv := inv_run reqs initState h
    ⟨fun w hw => absurd hw (List.not_mem_nil w), List.nodup_nil⟩
  refine ⟨invHolds_of_inv _ hinv.1, ?_⟩
  intro wid hwid
  have hst : (processInputs (runState initState reqs) ins).1
      = { runState initState reqs with
          serialCounter := (runState initState reqs).serialCounter + kbCount ins } :=
    processInputs_state ins (runState initState reqs)
  apply flag_of_composed _ ?_ wid hwid
  intro w hw hbuf
  rw [hst] at hw hbuf
  exact hinv.1 w hw hbuf

/-- Witness for C2: after creating window 1 and committing a buffer to
it, the well-formedness check passes and the invariant holds. -/
theorem no_premature_composition_witness :
    wfFrom initState [Req.newToplevel 1, Req.commit 1 true] = true
    ∧ invHolds (runState initState [Req.newToplevel 1, Req.commit 1 true])
        = true :=
  ⟨by decide,
   (no_premature_composition [Req.newToplevel 1, Req.commit 1 true] []
     (by decide)).1⟩

/-- C3 helper: counting a paired value in a constant-paired map is
counting the underlying value. -/
theorem count_pair (l : List Nat) (a t : Nat) :
    (l.map (fun x => (x, t))).count (a, t) = l.count a := by
  induction l with
  | nil => rfl
  | cons x xs ih =>
      rw [List.map_cons, List.count_cons, List.count_cons, ih]
      by_cases hx : x = a <;> simp [hx]

/-- C3: one tick sends exactly one frame callback per window mapped in
the Space at the callback step, each carrying the elapsed time since
server start, in Space order; the callback count equals the number of
mapped windows, every callback targets a mapped window, and each mapped
surface receives exactly as many callbacks as it has windows. -/
theorem frame_callback_exactness (s : CState) (ins : List IEvent) (t : Nat) :
    frameCallbacksOf (tick s ins t).2 = s.space.map (fun w => (w.surface, t))
    ∧ (frameCallbacksOf (tick s ins t).2).length = s.space.length
    ∧ (∀ wid td, (wid, td) ∈ frameCallbacksOf (tick s ins t).2 →
        td = t ∧ wid ∈ sids s.space)
    ∧ ∀ wid, (frameCallbacksOf (tick s ins t).2).count (wid, t)
        = (sids s.space).count wid := by
  have hsp : ((processInputs s ins).1).space = s.space := by
    rw [processInputs_state]
  have hout : (tick s ins t).2
      = (processInputs s ins).2
        ++ ([Ev.bindTarget,
            Ev.renderComposite (composedWindows (processInputs s ins).1),
            Ev.submitFrame]
          ++ ((processInputs s ins).1).space.map
              (fun w => Ev.frameCallback w.surface t)
          ++ [Ev.refreshSpace, Ev.flushClients]) := by
    show (tick s ins t).2 = _
    simp [tick]
  have hmain : frameCallbacksOf (tick s ins t).2
      = s.space.map (fun w => (w.surface, t)) := by
    rw [hout, frameCallbacksOf_append, frameCallbacksOf_append,
      frameCallbacksOf_append,
      no_callbacks_of_dispatch _ (processInputs_out_dispatch ins s),
      frameCallbacksOf_cbs, hsp]
    simp [frameCallbacksOf]
  refine ⟨hmain, ?_, ?_, ?_⟩
  · rw [hmain, List.length_map]
  · intro wid td hw
    rw [hmain] at hw
    rcases List.mem_map.1 hw with ⟨v, hv, hveq⟩
    have h1 : v.surface = wid := congrArg Prod.fst hveq
    have h2 : t = td := congrArg Prod.snd hveq
    exact ⟨h2.symm, List.mem_map.2 ⟨v, hv, h1⟩⟩
  · intro wid
    rw [hmain]
    have hmm : s.space.map (fun w => (w.surface, t))
        = (sids s.space).map (fun x => (x, t)) := by
      unfold sids
      rw [List.map_map]
      rfl
    rw [hmm, count_pair]

/-- Witness for C3: a tick over a single mapped window sends it one
callback carrying the tick's elapsed time. -/
theorem frame_callback_exactness_witness :
    5 = 5 ∧ 1 ∈ sids [(⟨1, true, (0, 0)⟩ : WindowM)] :=
  (frame_callback_exactness ⟨[⟨1, true, (0, 0)⟩], [(1, true)], none, 0⟩ [] 5).2.2.1
    1 5 (by decide)

/-- C5: over any run, the serials carried by forwarded key events are
strictly increasing with no repeats, every one is drawn from the single
global serial counter (each lies below the counter's final value, which
advances exactly once per dispatched keyboard event), and pointer events
are not handled at all — the single counter is shared by construction. -/
theorem serial_monotonicity (s0 : CState) (reqs : List Req) (d : Nat) :
    List.Chain' (· < ·) (forwardSerials (runTrace s0 reqs).2)
    ∧ (forwardSerials (runTrace s0 reqs).2).Nodup
    ∧ (∀ x ∈ forwardSerials (runTrace s0 reqs).2,
        s0.serialCounter ≤ x ∧ x < ((runTrace s0 reqs).1).serialCounter)
    ∧ ((runTrace s0 reqs).1).serialCounter
        = s0.serialCounter + kbCountReqs reqs
    ∧ processInput s0 (IEvent.pointer d) = (s0, []) := by
  have h := runTrace_serials reqs s0
  refine ⟨h.2.1, ?_, ?_, h.1, rfl⟩
  · have hpw : List.Pairwise (· < ·) (forwardSerials (runTrace s0 reqs).2) :=
      List.chain'_iff_pairwise.1 h.2.1
    exact hpw.imp Nat.ne_of_lt
  · intro x hx
    have := h.2.2 x hx
    rw [h.1]
    exact this

/-- Witness for C5: two keyboard events in one tick from counter 10 get
serials 10 and 11, both below the final counter value 12. -/
theorem serial_monotonicity_witness :
    (⟨[], [], some 2, 10⟩ : CState).serialCounter ≤ 10
    ∧ 10 < ((runTrace ⟨[], [], some 2, 10⟩
        [Req.tick [IEvent.keyboard 1 999 true 0,
          IEvent.keyboard 2 998 true 1] 0]).1).serialCounter :=
  (serial_monotonicity ⟨[], [], some 2, 10⟩
    [Req.tick [IEvent.keyboard 1 999 true 0, IEvent.keyboard 2 998 true 1] 0]
    0).2.2.1 10 (by decide)

/-- C7: a tick's trace is exactly its input-dispatch output, then the
render-target bind, then the composition of the mapped windows, then the
frame submission, then the frame callbacks, then the Space refresh and
client flush — every event of the input segment is an input-dispatch
event, so input dispatch strictly precedes composition within the tick;
and in a run the whole tick trace precedes everything of later
requests, so a tick runs to completion before the next is processed. -/
theorem tick_phase_order (s : CState) (ins : List IEvent) (t : Nat)
    (rs : List Req) :
    (tick s ins t).2
      = (processInputs s ins).2
        ++ [Ev.bindTarget,
            Ev.renderComposite (composedWindows (processInputs s ins).1),
            Ev.submitFrame]
        ++ ((processInputs s ins).1).space.map
            (fun w => Ev.frameCallback w.surface t)
        ++ [Ev.refreshSpace, Ev.flushClients]
    ∧ (∀ e ∈ (processInputs s ins).2, isInputDispatchEv e = true)
    ∧ (runTrace s (Req.tick ins t :: rs)).2
        = (tick s ins t).2 ++ (runTrace (tick s ins t).1 rs).2 :=
  ⟨rfl, processInputs_out_dispatch ins s, rfl⟩

/-- Witness for C7: the forwarded key event of a concrete tick is
classified as input-dispatch. -/
theorem tick_phase_order_witness :
    isInputDispatchEv (Ev.forwardKey 0 999 true 2) = true :=
  (tick_phase_order ⟨[], [], some 2, 0⟩ [IEvent.keyboard 17 999 true 0] 0 []).2.1
    (Ev.forwardKey 0 999 true 2) (by decide)

/-- C4: a pressed key whose modified keysym equals the registered global
binding value is intercepted — no key event is forwarded to any client
and exactly one spawn is executed by the event loop; any key event not
matching leaves the filter with Forward and causes no spawn. -/
theorem global_binding_interception (s : CState) (sym : Nat) (pressed : Bool) :
    ((pressed && (sym == boundSyms)) = true →
      keyFilter pressed sym = FilterResult.intercept 1
      ∧ (processKeyboard s sym pressed).2 = [Ev.spawn])
    ∧ ((pressed && (sym == boundSyms)) = false →
      keyFilter pressed sym = FilterResult.forward
      ∧ Ev.spawn ∉ (processKeyboard s sym pressed).2) := by
  constructor
  · intro h
    have hk : keyFilter pressed sym = FilterResult.intercept 1 := by
      simp [keyFilter, h]
    exact ⟨hk, by simp [processKeyboard, hk]⟩
  · intro h
    have hk : keyFilter pressed sym = FilterResult.forward := by
      simp [keyFilter, h]
    refine ⟨hk, ?_⟩
    cases hf : s.focus <;> simp [processKeyboard, hk, hf]

/-- Witness for C4: pressing the bound key symbol itself is intercepted
and spawns exactly once. -/
theorem global_binding_interception_witness :
    keyFilter true boundSyms = FilterResult.intercept 1
    ∧ (processKeyboard initState boundSyms true).2 = [Ev.spawn] :=
  (global_binding_interception initState boundSyms true).1 (by decide)

/-- C10: a key-release event is never intercepted by the global filter,
whatever its keysym; when a focused client exists the release is
forwarded to it — in particular the release of the bound key. -/
theorem release_never_intercepted (s : CState) (sym : Nat) :
    keyFilter false sym = FilterResult.forward
    ∧ Ev.spawn ∉ (processKeyboard s sym false).2
    ∧ (∀ f, s.focus = some f →
        (processKeyboard s sym false).2
          = [Ev.forwardKey s.serialCounter sym false f]) := by
  have hk : keyFilter false sym = FilterResult.forward := by simp [keyFilter]
  refine ⟨hk, ?_, ?_⟩
  · cases hf : s.focus <;> simp [processKeyboard, hk, hf]
  · intro f hf
    simp [processKeyboard, hk, hf]

/-- Witness for C10: releasing the bound key is forwarded to the focused
client with the current serial. -/
theorem release_never_intercepted_witness :
    keyFilter false boundSyms = FilterResult.forward
    ∧ (processKeyboard ⟨[], [], some 5, 7⟩ boundSyms false).2
        = [Ev.forwardKey 7 boundSyms false 5] :=
  ⟨(release_never_intercepted ⟨[], [], some 5, 7⟩ boundSyms).1,
   (release_never_intercepted ⟨[], [], some 5, 7⟩ boundSyms).2.2 5 rfl⟩

/-- Counterexample to C8 as stated: creating a toplevel does not make it
the seat's keyboard focus — after creating window 1 from the startup
state the focus is still none, not some 1. -/
theorem new_toplevel_focus_counterexample :
    ((new_toplevel initState 1).1).focus = none
    ∧ ¬ ((new_toplevel initState 1).1).focus = some 1 := by decide

/-- C8 amended: creating a new toplevel maps the window into the Space at
the origin without activation and leaves the seat's keyboard focus
unchanged; no operation of the compositor ever sets the focus, so from
startup it stays none. -/
theorem new_toplevel_maps_without_focus (s : CState) (sid : Nat) (reqs : List Req) :
    ((new_toplevel s sid).1).focus = s.focus
    ∧ ((new_toplevel s sid).1).space = s.space ++ [⟨sid, false, (0, 0)⟩]
    ∧ (runState initState reqs).focus = none :=
  ⟨rfl, rfl, runState_focus reqs initState⟩

/-- Counterexample to C6 as stated: a failed spawn for the global binding
does not leave the server running — executing the action token with a
failing spawn is the panic of the .expect call, not a reported-and-
continue outcome. -/
theorem spawn_failure_counterexample :
    runActionToken (some 1) false initState
      = Except.error "Failed to spawn alacritty"
    ∧ ¬ ∀ s : CState, (runActionToken (some 1) false s).isOk = true := by
  constructor
  · rfl
  · intro h
    have h2 := h initState
    simp [runActionToken, Except.isOk, Except.toBool] at h2

/-- C6 amended: when the spawn for the global binding fails, the server
panics with the .expect message (the failure terminates the server
rather than being merely reported); a successful spawn, and any
non-matching action token, return the compositor state unchanged. -/
theorem spawn_failure_panics (s : CState) (ok : Bool) :
    (ok = false → runActionToken (some 1) ok s
        = Except.error "Failed to spawn alacritty")
    ∧ (ok = true → runActionToken (some 1) ok s = Except.ok (s, [Ev.spawn]))
    ∧ (∀ a, a ≠ some 1 → runActionToken a ok s = Except.ok (s, [])) := by
  refine ⟨?_, ?_, ?_⟩
  · intro h; simp [runActionToken, h]
  · intro h; simp [runActionToken, h]
  · intro a ha; simp [runActionToken, ha]

/-- Witness for C6 amended: the failing spawn is the panic, and a
non-matching token leaves the state unchanged. -/
theorem spawn_failure_panics_witness :
    runActionToken (some 1) false initState
      = Except.error "Failed to spawn alacritty"
    ∧ runActionToken none false initState = Except.ok (initState, []) :=
  ⟨(spawn_failure_panics initState false).1 rfl,
   (spawn_failure_panics initState false).2.2 none (by decide)⟩

/-- C9: a commit on a surface that is not the toplevel surface of any
window in the Space performs only buffer bookkeeping: it sends no
configure, emits nothing, and leaves the Space, focus and serial counter
unchanged; the handler is total, so it cannot fail. -/
theorem commit_foreign_surface (s : CState) (sid : Nat) (b : Bool)
    (h : findWL s.space sid = none) :
    (commit s sid b).2 = []
    ∧ ((commit s sid b).1).space = s.space
    ∧ ((commit s sid b).1).focus = s.focus
    ∧ ((commit s sid b).1).serialCounter = s.serialCounter
    ∧ ((commit s sid b).1).surfaces = setSB s.surfaces sid b := by
  unfold commit
  simp [h]

/-- Witness for C9: committing surface 1 while only window 2 is mapped
emits nothing and leaves the Space alone. -/
theorem commit_foreign_surface_witness :
    (commit ⟨[⟨2, true, (0, 0)⟩], [], none, 0⟩ 1 true).2 = []
    ∧ ((commit ⟨[⟨2, true, (0, 0)⟩], [], none, 0⟩ 1 true).1).space
        = [⟨2, true, (0, 0)⟩] :=
  ⟨(commit_foreign_surface ⟨[⟨2, true, (0, 0)⟩], [], none, 0⟩ 1 true (by decide)).1,
   (commit_foreign_surface ⟨[⟨2, true, (0, 0)⟩], [], none, 0⟩ 1 true (by decide)).2.1⟩

end PulseWM
